import Mathlib

/-!
Verification of the SnapNotes note-taking tool (snapnotes.py).

The source is a single-file Python CLI storing notes as JSON in
`~/.snapnotes/notes.json`.  This development shallowly embeds its data
model and operations:

* `Note`, `Store` mirror the `Note` dataclass and the persisted dict
  `{"next_id": int, "notes": [...]}`.  Python ints are embedded as `Int`.
* The file system seen by the repository operations is abstracted as `FS`:
  the current parsed content of the store file plus a count of completed
  `save_store` calls (so "the file was not rewritten" is expressible).
* Python `str.strip` is embedded as `String.trim`, `str.lower` as the
  character-wise `lowerStr` (ASCII case mapping; the embedding is faithful
  on the ASCII strings all claims quantify over), the Python substring
  test `q in s` as `containsSub`.
* The wall clock (`datetime.utcnow().isoformat()`) is a parameter `now`;
  `add_note` stamps `now ++ "Z"` exactly as the source appends `'Z'`.
* `json.dump(..., ensure_ascii=False, indent=2)` and `json.load` are
  embedded character-exactly for the store's data shape (`dumpVal`,
  `parseValue`): objects, arrays, strings with the escapes the Python
  encoder emits, integers, booleans and null.
* `save_store`'s write-temp-then-rename sequence is embedded as a list of
  primitive file-system steps acting on a `Disk` map, so the atomicity
  claim can quantify over the intermediate states.
-/

/-- The `Note` dataclass: `id`, `title`, `body`, `tags`, `created_at`. -/
structure Note where
  id : Int
  title : String
  body : String
  tags : List String
  created_at : String
deriving DecidableEq, Repr

/-- The persisted store dict `{"next_id": ..., "notes": [...]}`. -/
structure Store where
  next_id : Int
  notes : List Note
deriving DecidableEq, Repr

/-- Abstract file-system state seen by the repository operations: the
current (parsed) content of `~/.snapnotes/notes.json` plus how many times
`save_store` has rewritten it. -/
structure FS where
  file : Store
  writes : Nat
deriving DecidableEq, Repr

/-- The store content `ensure_store` writes when the file is absent:
`{"next_id": 1, "notes": []}`. -/
def initial_store : Store := { next_id := 1, notes := [] }

/-- `load_store()`: reads and parses the store file. -/
def load_store (fs : FS) : Store := fs.file

/-- `save_store(data)`: rewrites the store file with `data` (the
write-temp-then-rename mechanics are modelled separately for the
atomicity claim; here only the resulting content and the fact that a
rewrite happened are tracked). -/
def save_store (data : Store) (fs : FS) : FS :=
  { file := data, writes := fs.writes + 1 }

/-- `add_note(title, body, tags)` from the source: loads the store, takes
`nid = data.get("next_id", 1)`, builds the note with stripped title and
body, the tag comprehension `[t.strip() for t in (tags or []) if t.strip()]`,
and `created_at = datetime.utcnow().isoformat() + 'Z'` (the clock reading
is the parameter `now`); appends it, bumps `next_id`, saves, returns the
note. -/
def add_note (title body : String) (tags : List String) (now : String)
    (fs : FS) : FS × Note :=
  let data := load_store fs
  let nid := data.next_id
  let note : Note :=
    { id := nid
      title := title.trim
      body := body.trim
      tags := tags.filterMap (fun t => if t.trim = "" then none else some t.trim)
      created_at := now ++ "Z" }
  let data' : Store := { data with notes := data.notes ++ [note], next_id := nid + 1 }
  (save_store data' fs, note)

/-- `list_notes()`: loads the store and returns all notes in stored order. -/
def list_notes (fs : FS) : List Note := (load_store fs).notes

/-- The `for n in list_notes(): if n.id == note_id: return n` loop of
`find_note`. -/
def find_loop (note_id : Int) : List Note → Option Note
  | [] => none
  | n :: rest => if n.id == note_id then some n else find_loop note_id rest

/-- `find_note(note_id)`: first note whose id matches, else `None`. -/
def find_note (note_id : Int) (fs : FS) : Option Note :=
  find_loop note_id (list_notes fs)

/-- `delete_note(note_id)`: keeps `[n for n in notes if n.get("id") != note_id]`;
if nothing was removed returns `False` without saving, otherwise saves the
filtered list and returns `True`. -/
def delete_note (note_id : Int) (fs : FS) : FS × Bool :=
  let data := load_store fs
  let notes := data.notes
  let new_notes := notes.filter (fun n => n.id != note_id)
  if new_notes.length = notes.length then (fs, false)
  else (save_store { data with notes := new_notes } fs, true)

/-- Character-list test for `b.isPrefixOf`-style matching: does the second
list start with the first? -/
def startsWithChars (q s : List Char) : Bool :=
  match q, s with
  | [], _ => true
  | qc :: qrest, sc :: srest => qc == sc && startsWithChars qrest srest
  | _ :: _, [] => false

/-- The Python substring test `q in s` on character lists. -/
def containsSub : List Char → List Char → Bool
  | q, [] => q.isEmpty
  | q, c :: rest => startsWithChars q (c :: rest) || containsSub q rest

/-- Python `str.lower`: the character-wise case mapping. -/
def lowerStr (s : String) : String := String.mk (s.data.map Char.toLower)

/-- The match predicate of `search_notes`: the lowercased query occurs in
the lowercased title, the lowercased body, or some lowercased tag. -/
def note_matches (query : String) (n : Note) : Bool :=
  containsSub (lowerStr query).data (lowerStr n.title).data ||
  containsSub (lowerStr query).data (lowerStr n.body).data ||
  n.tags.any (fun t => containsSub (lowerStr query).data (lowerStr t).data)

/-- `search_notes(query)`: lowercases the query once, then accumulates (in
stored order) the notes whose title, body or some tag contains it. -/
def search_notes (query : String) (fs : FS) : List Note :=
  let q := lowerStr query
  (list_notes fs).foldl
    (fun result n =>
      if containsSub q.data (lowerStr n.title).data ||
         containsSub q.data (lowerStr n.body).data ||
         n.tags.any (fun t => containsSub q.data (lowerStr t).data)
      then result ++ [n] else result)
    []

/-- The `view` branch of `main`: exit code and the printed lines. -/
def main_view (note_id : Int) (fs : FS) : Nat × List String :=
  match find_note note_id fs with
  | none => (1, ["Note " ++ toString note_id ++ " not found"])
  | some n =>
      (0, [n.title ++ " (id=" ++ toString n.id ++ ")\ncreated: " ++ n.created_at ++
           "\ntags: " ++ String.intercalate ", " n.tags ++ "\n\n" ++ n.body])

/-- The `delete` branch of `main`: resulting file system, exit code and the
printed lines. -/
def main_delete (note_id : Int) (fs : FS) : FS × Nat × List String :=
  let r := delete_note note_id fs
  (r.1, 0, [if r.2 then "Deleted." else "Note not found."])

/-- One CLI-level mutating operation, for reasoning about operation
sequences: an `add` (with its clock reading) or a `delete`. -/
inductive Op where
  | add (title body : String) (tags : List String) (now : String)
  | del (note_id : Int)

/-- Effect of one operation on the file system. -/
def apply_op (fs : FS) : Op → FS
  | .add t b tg now => (add_note t b tg now fs).1
  | .del i => (delete_note i fs).1

/-- Run a sequence of operations. -/
def run_ops (fs : FS) : List Op → FS
  | [] => fs
  | op :: rest => run_ops (apply_op fs op) rest

/-- The ids handed out by the `add` calls of a sequence, in call order. -/
def added_ids (fs : FS) : List Op → List Int
  | [] => []
  | .add t b tg now :: rest =>
      (add_note t b tg now fs).2.id :: added_ids (add_note t b tg now fs).1 rest
  | .del i :: rest => added_ids (delete_note i fs).1 rest

/-- Number of `add` operations in a sequence. -/
def count_adds : List Op → Nat
  | [] => 0
  | .add _ _ _ _ :: rest => count_adds rest + 1
  | .del _ :: rest => count_adds rest

/-- The file system holding the freshly initialized store. -/
def init_fs : FS := { file := initial_store, writes := 0 }

/-- JSON values as `json.load` produces and `json.dump` consumes for the
store's data (objects keep member order, as Python dicts do). -/
inductive Json where
  | num (i : Int)
  | str (t : String)
  | null
  | bool (flag : Bool)
  | arr (items : List Json)
  | obj (fields : List (String × Json))
deriving Repr

/-- Hexadecimal digit character, lowercase, as Python's `'%04x'` emits. -/
def hexChar (n : Nat) : Char := Nat.digitChar n

/-- One character of Python's `json` string encoder (`ensure_ascii=False`):
quote, backslash and the named control characters get two-character
escapes, other control characters get `\u00xx`, everything else is
emitted raw. -/
def escapeChar (c : Char) : List Char :=
  if c = '"' then ['\\', '"']
  else if c = '\\' then ['\\', '\\']
  else if c = '\n' then ['\\', 'n']
  else if c = '\t' then ['\\', 't']
  else if c = '\r' then ['\\', 'r']
  else if c = '\x08' then ['\\', 'b']
  else if c = '\x0c' then ['\\', 'f']
  else if c.toNat < 32 then ['\\', 'u', '0', '0', hexChar (c.toNat / 16), hexChar (c.toNat % 16)]
  else [c]

/-- Python JSON string-body encoding of a character list. -/
def escapeChars : List Char → List Char
  | [] => []
  | c :: cs => escapeChar c ++ escapeChars cs

/-- Decimal digits, most significant first, with a structural fuel bound
(any `fuel > n` is enough, since the value shrinks ten-fold each step). -/
def natCharsAux : Nat → Nat → List Char
  | 0, _ => []
  | fuel + 1, n =>
    if n < 10 then [Nat.digitChar n]
    else natCharsAux fuel (n / 10) ++ [Nat.digitChar (n % 10)]

/-- Decimal digits of a natural number, most significant first. -/
def natChars (n : Nat) : List Char := natCharsAux (n + 1) n

/-- Python's decimal rendering of an int. -/
def intChars (n : Int) : List Char :=
  if n < 0 then '-' :: natChars n.natAbs else natChars n.toNat

/-- Indentation emitted by `json.dump(..., indent=2)` at nesting level
`lvl`. -/
def pad (lvl : Nat) : List Char := List.replicate (2 * lvl) ' '

mutual
/-- Character-exact output of `json.dump(value, ensure_ascii=False, indent=2)`
for a value at nesting level `lvl`: members of non-empty containers each
on their own line indented two more spaces, `": "` after keys, `","`
between items, empty containers as `[]` / `{}`. -/
def dumpVal : Nat → Json → List Char
  | _, .null => ['n', 'u', 'l', 'l']
  | _, .bool true => ['t', 'r', 'u', 'e']
  | _, .bool false => ['f', 'a', 'l', 's', 'e']
  | _, .num n => intChars n
  | _, .str s => '"' :: (escapeChars s.data ++ ['"'])
  | _, .arr [] => ['[', ']']
  | lvl, .arr (x :: xs) =>
      '[' :: '\n' :: (pad (lvl + 1) ++ dumpVal (lvl + 1) x ++ dumpElemsRest (lvl + 1) xs ++
        '\n' :: (pad lvl ++ [']']))
  | _, .obj [] => ['{', '}']
  | lvl, .obj (kv :: kvs) =>
      '{' :: '\n' :: (pad (lvl + 1) ++ dumpMember (lvl + 1) kv ++ dumpMembersRest (lvl + 1) kvs ++
        '\n' :: (pad lvl ++ ['}']))

/-- Remaining array items: `,\n<indent><item>` each. -/
def dumpElemsRest : Nat → List Json → List Char
  | _, [] => []
  | lvl, x :: xs => ',' :: '\n' :: (pad lvl ++ dumpVal lvl x ++ dumpElemsRest lvl xs)

/-- One object member: `"key": <value>`. -/
def dumpMember : Nat → String × Json → List Char
  | lvl, (k, v) => '"' :: (escapeChars k.data ++ '"' :: ':' :: ' ' :: dumpVal lvl v)

/-- Remaining object members: `,\n<indent><member>` each. -/
def dumpMembersRest : Nat → List (String × Json) → List Char
  | _, [] => []
  | lvl, kv :: kvs => ',' :: '\n' :: (pad lvl ++ dumpMember lvl kv ++ dumpMembersRest lvl kvs)
end

/-- `json.dumps(j, ensure_ascii=False, indent=2)` as a string. -/
def json_dumps (j : Json) : String := String.mk (dumpVal 0 j)

/-- The whitespace characters the Python JSON scanner skips. -/
def isWsChar (c : Char) : Bool := c == ' ' || c == '\r' || c == '\n' || c == '\t'

/-- Skip JSON whitespace. -/
def skipWs : List Char → List Char
  | [] => []
  | c :: cs => if isWsChar c then skipWs cs else c :: cs

/-- ASCII decimal digit test. -/
def isDigitChar (c : Char) : Bool := 48 ≤ c.toNat && c.toNat ≤ 57

/-- Value of a hexadecimal digit character. -/
def parseHex (c : Char) : Option Nat :=
  if 48 ≤ c.toNat ∧ c.toNat ≤ 57 then some (c.toNat - 48)
  else if 97 ≤ c.toNat ∧ c.toNat ≤ 102 then some (c.toNat - 87)
  else if 65 ≤ c.toNat ∧ c.toNat ≤ 70 then some (c.toNat - 55)
  else none

/-- The two-character escapes the Python JSON decoder accepts. -/
def unescapeChar (e : Char) : Option Char :=
  if e = '"' then some '"'
  else if e = '\\' then some '\\'
  else if e = '/' then some '/'
  else if e = 'b' then some '\x08'
  else if e = 'f' then some '\x0c'
  else if e = 'n' then some '\n'
  else if e = 'r' then some '\r'
  else if e = 't' then some '\t'
  else none

/-- Python JSON string-body scanner, entered after the opening quote, with
a structural fuel bound (the input's length is always enough, as every
step consumes at least one character): returns the decoded characters and
the input after the closing quote.
Raw control characters are rejected (`strict=True`); `\uXXXX` decodes a
single code unit (surrogate pairing is not modelled — the store's encoder
only ever emits `\u00XX`). -/
def parseStringBody : Nat → List Char → Option (List Char × List Char)
  | _, [] => none
  | 0, _ :: _ => none
  | fuel + 1, c :: cs =>
    if c = '"' then some ([], cs)
    else if c = '\\' then
      match cs with
      | [] => none
      | e :: cs2 =>
        if e = 'u' then
          match cs2 with
          | h1 :: h2 :: h3 :: h4 :: cs3 =>
            match parseHex h1, parseHex h2, parseHex h3, parseHex h4 with
            | some a, some b, some c4, some d =>
                (parseStringBody fuel cs3).map
                  (fun p => (Char.ofNat (((a * 16 + b) * 16 + c4) * 16 + d) :: p.1, p.2))
            | _, _, _, _ => none
          | _ => none
        else
          match unescapeChar e with
          | some u => (parseStringBody fuel cs2).map (fun p => (u :: p.1, p.2))
          | none => none
    else if c.toNat < 32 then none
    else (parseStringBody fuel cs).map (fun p => (c :: p.1, p.2))

/-- Integer-literal scanner: consumes the maximal digit run. -/
def parseNat (s : List Char) : Option (Nat × List Char) :=
  let ds := s.takeWhile isDigitChar
  if ds.isEmpty then none
  else some (ds.foldl (fun a c => a * 10 + (c.toNat - 48)) 0, s.drop ds.length)

mutual
/-- Recursive-descent scanner for one JSON value (Python `json.load` on
the store's data: objects, arrays, strings, integers, literals), with a
fuel argument bounding recursion depth.  Returns the value and the rest
of the input. -/
def parseValue : Nat → List Char → Option (Json × List Char)
  | 0, _ => none
  | fuel + 1, s =>
    match skipWs s with
    | [] => none
    | c :: rest =>
      if c = '"' then
        (parseStringBody rest.length rest).map (fun p => (.str (String.mk p.1), p.2))
      else if c = '{' then
        match skipWs rest with
        | '}' :: rest2 => some (.obj [], rest2)
        | _ => (parseMembers fuel rest).map (fun p => (.obj p.1, p.2))
      else if c = '[' then
        match skipWs rest with
        | ']' :: rest2 => some (.arr [], rest2)
        | _ => (parseElems fuel rest).map (fun p => (.arr p.1, p.2))
      else if c = 't' then
        match rest with
        | 'r' :: 'u' :: 'e' :: r => some (.bool true, r)
        | _ => none
      else if c = 'f' then
        match rest with
        | 'a' :: 'l' :: 's' :: 'e' :: r => some (.bool false, r)
        | _ => none
      else if c = 'n' then
        match rest with
        | 'u' :: 'l' :: 'l' :: r => some (.null, r)
        | _ => none
      else if c = '-' then
        (parseNat rest).map (fun p => (.num (-(p.1 : Int)), p.2))
      else if isDigitChar c then
        (parseNat (c :: rest)).map (fun p => (.num (p.1 : Int), p.2))
      else none

/-- Items of a non-empty array, entered after `[`. -/
def parseElems : Nat → List Char → Option (List Json × List Char)
  | 0, _ => none
  | fuel + 1, s =>
    match parseValue fuel s with
    | none => none
    | some (v, r) =>
      match skipWs r with
      | ',' :: r2 => (parseElems fuel r2).map (fun p => (v :: p.1, p.2))
      | ']' :: r2 => some ([v], r2)
      | _ => none

/-- Members of a non-empty object, entered after `{`. -/
def parseMembers : Nat → List Char → Option (List (String × Json) × List Char)
  | 0, _ => none
  | fuel + 1, s =>
    match skipWs s with
    | '"' :: r =>
      match parseStringBody r.length r with
      | none => none
      | some (k, r2) =>
        match skipWs r2 with
        | ':' :: r3 =>
          match parseValue fuel r3 with
          | none => none
          | some (v, r4) =>
            match skipWs r4 with
            | ',' :: r5 => (parseMembers fuel r5).map (fun p => ((String.mk k, v) :: p.1, p.2))
            | '}' :: r5 => some ([(String.mk k, v)], r5)
            | _ => none
        | _ => none
    | _ => none
end

/-- `json.load` on a whole document: one value, then only whitespace may
remain. -/
def json_loads (s : String) : Option Json :=
  match parseValue (s.length + 1) s.data with
  | some (j, rest) => if skipWs rest = [] then some j else none
  | none => none

/-- Input whose first character (if any) is not a decimal digit, so a
preceding number literal cannot absorb it. -/
def nonDigitStart : List Char → Bool
  | [] => true
  | c :: _ => !(isDigitChar c)

/-- `NOTES_FILE = APP_DIR / "notes.json"`; `~` stands for the ambient
`Path.home()`. -/
def NOTES_FILE : String := "~/.snapnotes/notes.json"

/-- `NOTES_FILE.with_suffix('.tmp')`. -/
def TMP_FILE : String := "~/.snapnotes/notes.tmp"

/-- Directory part of a path: everything before the last `/`. -/
def dirname (p : String) : String :=
  String.mk (((p.data.reverse.dropWhile (fun c => c ≠ '/')).drop 1).reverse)

/-- Primitive file-system actions `save_store` performs. -/
inductive FsOp where
  | write (path content : String)
  | rename (src dst : String)

/-- A directory's contents: complete file contents by path. -/
abbrev Disk : Type := String → Option String

/-- Effect of one primitive action.  `rename` is the atomic
`os.rename`/`shutil.move`-on-the-same-filesystem replacement. -/
def fs_step (d : Disk) : FsOp → Disk
  | .write p c => fun q => if q = p then some c else d q
  | .rename src dst => fun q =>
      if q = src then none else if q = dst then d src else d q

/-- Run a sequence of primitive actions. -/
def fs_steps (d : Disk) : List FsOp → Disk
  | [] => d
  | op :: rest => fs_steps (fs_step d op) rest

/-- `asdict(note)`: the note's JSON record, keys in dataclass field
order. -/
def note_to_json (n : Note) : Json :=
  .obj [("id", .num n.id), ("title", .str n.title), ("body", .str n.body),
        ("tags", .arr (n.tags.map .str)), ("created_at", .str n.created_at)]

/-- The store dict as a JSON document. -/
def store_to_json (st : Store) : Json :=
  .obj [("next_id", .num st.next_id), ("notes", .arr (st.notes.map note_to_json))]

/-- The exact bytes `save_store` writes for a store. -/
def store_file_content (st : Store) : String := json_dumps (store_to_json st)

/-- `save_store(data)` as its sequence of primitive file-system actions:
dump the whole store into the `.tmp` file beside the target, then move it
over `NOTES_FILE`. -/
def save_store_steps (st : Store) : List FsOp :=
  [.write TMP_FILE (store_file_content st), .rename TMP_FILE NOTES_FILE]

/-- The bytes the file would hold after `save_store(load_store())` given
its current bytes `s` (`none` when `s` is not valid JSON and `json.load`
raises instead). -/
def store_save_load (s : String) : Option String :=
  (json_loads s).map json_dumps

/-- Decode a JSON array of strings (a note's `tags`). -/
def json_strings : List Json → Option (List String)
  | [] => some []
  | .str s :: rest => (json_strings rest).map (s :: ·)
  | _ => none

/-- Read one note record back (`Note(**n)` on a record with the dataclass
fields in written order). -/
def json_to_note : Json → Option Note
  | .obj [("id", .num i), ("title", .str t), ("body", .str b),
          ("tags", .arr tg), ("created_at", .str c)] =>
      (json_strings tg).map fun tags =>
        { id := i, title := t, body := b, tags := tags, created_at := c }
  | _ => none

/-- Decode a JSON array of note records. -/
def json_notes : List Json → Option (List Note)
  | [] => some []
  | j :: rest =>
    match json_to_note j with
    | some n => (json_notes rest).map (n :: ·)
    | none => none

/-- A parsed JSON document has the store file's shape: the two keys, an
integer counter and decodable note records. -/
def is_store_json : Json → Bool
  | .obj [("next_id", .num _), ("notes", .arr items)] =>
      items.all (fun j => (json_to_note j).isSome)
  | _ => false

/-- `export_notes(path, fmt="json")`: the exact bytes written, a single
`"notes"` key holding the full ordered records. -/
def export_json_content (notes : List Note) : String :=
  json_dumps (.obj [("notes", .arr (notes.map note_to_json))])

/-- The json-format export of the current store. -/
def export_notes_json (fs : FS) : String := export_json_content (list_notes fs)

/-- Parse an exported json file back into its note sequence. -/
def decode_export (s : String) : Option (List Note) :=
  match json_loads s with
  | some (.obj [("notes", .arr items)]) => json_notes items
  | _ => none

mutual
/-- Fuel sufficient for `parseValue` to scan this value. -/
def jfuel : Json → Nat
  | .arr l => elemsFuel l + 1
  | .obj l => membersFuel l + 1
  | .num _ => 1
  | .str _ => 1
  | .null => 1
  | .bool _ => 1

/-- Fuel sufficient for `parseElems` to scan these items. -/
def elemsFuel : List Json → Nat
  | [] => 0
  | x :: xs => jfuel x + 1 + elemsFuel xs

/-- Fuel sufficient for `parseMembers` to scan these members. -/
def membersFuel : List (String × Json) → Nat
  | [] => 0
  | kv :: kvs => jfuel kv.2 + 1 + membersFuel kvs
end

theorem filterMap_trim_eq (tags : List String) :
    tags.filterMap (fun t => if t.trim = "" then none else some t.trim) =
      (tags.map String.trim).filter (fun s => s ≠ "") := by
  induction tags with
  | nil => rfl
  | cons t ts ih =>
      by_cases h : t.trim = "" <;>
        simp [List.filterMap_cons, List.filter_cons, h, ih]

theorem find_loop_eq_find? (note_id : Int) (l : List Note) :
    find_loop note_id l = l.find? (fun n => n.id == note_id) := by
  induction l with
  | nil => rfl
  | cons n rest ih =>
      by_cases h : n.id == note_id <;> simp [find_loop, List.find?_cons, h, ih]

theorem delete_note_eq (note_id : Int) (fs : FS) :
    delete_note note_id fs =
      if (fs.file.notes.filter (fun n => n.id != note_id)).length = fs.file.notes.length
      then (fs, false)
      else (save_store
        { fs.file with notes := fs.file.notes.filter (fun n => n.id != note_id) } fs,
        true) := rfl

theorem delete_note_ret_iff (note_id : Int) (fs : FS) :
    (delete_note note_id fs).2 = true ↔ ∃ n ∈ fs.file.notes, n.id = note_id := by
  rw [delete_note_eq]
  by_cases h :
      (fs.file.notes.filter (fun n => n.id != note_id)).length = fs.file.notes.length
  · rw [if_pos h]
    constructor
    · intro hfalse; exact absurd hfalse (by simp)
    · rintro ⟨n, hn, hid⟩
      have := List.filter_length_eq_length.mp h n hn
      simp [bne_iff_ne, hid] at this
  · rw [if_neg h]
    constructor
    · intro _
      by_contra hno
      push_neg at hno
      apply h
      apply List.filter_length_eq_length.mpr
      intro n hn
      simpa [bne_iff_ne] using hno n hn
    · intro _; rfl

theorem delete_note_notes_eq (note_id : Int) (fs : FS) :
    (delete_note note_id fs).1.file.notes =
      fs.file.notes.filter (fun n => n.id != note_id) := by
  rw [delete_note_eq]
  by_cases h :
      (fs.file.notes.filter (fun n => n.id != note_id)).length = fs.file.notes.length
  · rw [if_pos h]
    exact (List.filter_eq_self.mpr (List.filter_length_eq_length.mp h)).symm
  · rw [if_neg h]
    rfl

theorem delete_note_false_frozen (note_id : Int) (fs : FS)
    (h : (delete_note note_id fs).2 = false) : (delete_note note_id fs).1 = fs := by
  rw [delete_note_eq] at h ⊢
  by_cases hl :
      (fs.file.notes.filter (fun n => n.id != note_id)).length = fs.file.notes.length
  · rw [if_pos hl]
  · rw [if_neg hl] at h
    exact absurd h (by simp)

theorem delete_note_true_writes (note_id : Int) (fs : FS)
    (h : (delete_note note_id fs).2 = true) :
    (delete_note note_id fs).1.writes = fs.writes + 1 := by
  rw [delete_note_eq] at h ⊢
  by_cases hl :
      (fs.file.notes.filter (fun n => n.id != note_id)).length = fs.file.notes.length
  · rw [if_pos hl] at h
    exact absurd h (by simp)
  · rw [if_neg hl]
    rfl

theorem delete_note_next_id (note_id : Int) (fs : FS) :
    (delete_note note_id fs).1.file.next_id = fs.file.next_id := by
  rw [delete_note_eq]
  by_cases hl :
      (fs.file.notes.filter (fun n => n.id != note_id)).length = fs.file.notes.length
  · rw [if_pos hl]
  · rw [if_neg hl]
    rfl

/-- C1: `addNote` assigns `id = next_id`, trims title and body, trims the
tags dropping empties, stamps the clock reading plus `'Z'`, appends the
note, bumps `next_id` by one, saves exactly once, and returns the note it
stored. -/
theorem add_note_correct (title body : String) (tags : List String) (now : String)
    (fs : FS) :
    (add_note title body tags now fs).2.id = (load_store fs).next_id ∧
    (add_note title body tags now fs).2.title = title.trim ∧
    (add_note title body tags now fs).2.body = body.trim ∧
    (add_note title body tags now fs).2.tags =
      (tags.map String.trim).filter (fun s => s ≠ "") ∧
    (add_note title body tags now fs).2.created_at = now ++ "Z" ∧
    (add_note title body tags now fs).1.file.notes =
      fs.file.notes ++ [(add_note title body tags now fs).2] ∧
    (add_note title body tags now fs).1.file.next_id = fs.file.next_id + 1 ∧
    (add_note title body tags now fs).1.writes = fs.writes + 1 :=
  ⟨rfl, rfl, rfl, filterMap_trim_eq tags, rfl, rfl, rfl, rfl⟩

/-- C3: `deleteNote` returns `true` and rewrites the store exactly when a
note with the id was present; otherwise it returns `false` and leaves the
file system untouched (no rewrite). -/
theorem delete_note_correct (note_id : Int) (fs : FS) :
    ((delete_note note_id fs).2 = true ↔ ∃ n ∈ fs.file.notes, n.id = note_id) ∧
    ((delete_note note_id fs).2 = true →
        (delete_note note_id fs).1.file.notes =
          fs.file.notes.filter (fun n => n.id != note_id) ∧
        (delete_note note_id fs).1.writes = fs.writes + 1) ∧
    ((delete_note note_id fs).2 = false → (delete_note note_id fs).1 = fs) :=
  ⟨delete_note_ret_iff note_id fs,
   fun h => ⟨delete_note_notes_eq note_id fs, delete_note_true_writes note_id fs h⟩,
   delete_note_false_frozen note_id fs⟩

/-- C3 witness: on a store holding note 1, `delete 1` saves once; on the
resulting store, `delete 1` returns `false` and changes nothing. -/
theorem delete_note_correct_witness :
    (delete_note 1 (⟨⟨3, [⟨1, "a", "b", [], "t"⟩]⟩, 0⟩ : FS)).1.writes = 0 + 1 ∧
    (delete_note 2 (⟨⟨3, [⟨1, "a", "b", [], "t"⟩]⟩, 0⟩ : FS)).1 =
      (⟨⟨3, [⟨1, "a", "b", [], "t"⟩]⟩, 0⟩ : FS) :=
  ⟨((delete_note_correct 1 (⟨⟨3, [⟨1, "a", "b", [], "t"⟩]⟩, 0⟩ : FS)).2.1
      (by decide)).2,
   (delete_note_correct 2 (⟨⟨3, [⟨1, "a", "b", [], "t"⟩]⟩, 0⟩ : FS)).2.2
      (by decide)⟩

theorem containsSub_nil (l : List Char) : containsSub [] l = true := by
  cases l <;> simp [containsSub, startsWithChars, List.isEmpty]

theorem foldl_append_filter {α : Type} (p : α → Bool) (l acc : List α) :
    l.foldl (fun r n => if p n then r ++ [n] else r) acc = acc ++ l.filter p := by
  induction l generalizing acc with
  | nil => simp
  | cons x xs ih =>
      by_cases h : p x <;> simp [List.foldl_cons, List.filter_cons, h, ih]

theorem search_notes_eq_filter (query : String) (fs : FS) :
    search_notes query fs = (list_notes fs).filter (note_matches query) := by
  unfold search_notes note_matches
  simpa using foldl_append_filter (fun n =>
    containsSub (lowerStr query).data (lowerStr n.title).data ||
    containsSub (lowerStr query).data (lowerStr n.body).data ||
    n.tags.any (fun t => containsSub (lowerStr query).data (lowerStr t).data))
    (list_notes fs) []

/-- C4: `searchNotes` returns exactly the notes whose lowercased title,
body or some tag contains the lowercased query, in stored order; the
result is a subset of `listNotes()`; the empty query matches everything. -/
theorem search_notes_correct (query : String) (fs : FS) :
    search_notes query fs = (list_notes fs).filter (note_matches query) ∧
    (∀ n ∈ search_notes query fs, n ∈ list_notes fs) ∧
    search_notes "" fs = list_notes fs := by
  refine ⟨search_notes_eq_filter query fs, ?_, ?_⟩
  · intro n hn
    rw [search_notes_eq_filter] at hn
    exact (List.mem_filter.mp hn).1
  · rw [search_notes_eq_filter]
    have : ∀ n : Note, note_matches "" n = true := by
      intro n
      have hq : (lowerStr "").data = [] := rfl
      simp [note_matches, hq, containsSub_nil]
    calc (list_notes fs).filter (note_matches "")
        = (list_notes fs).filter (fun _ => true) := by
          apply List.filter_congr; intro n _; exact this n
      _ = list_notes fs := List.filter_true _

/-- C4 witness: searching `"MILK"` finds the mixed-case "Buy milk" note,
and it is indeed among the listed notes. -/
theorem search_notes_correct_witness :
    (⟨1, "Buy milk", "2%", ["shopping"], "t"⟩ : Note) ∈
      list_notes (⟨⟨2, [⟨1, "Buy milk", "2%", ["shopping"], "t"⟩]⟩, 0⟩ : FS) :=
  (search_notes_correct "MILK" (⟨⟨2, [⟨1, "Buy milk", "2%", ["shopping"], "t"⟩]⟩, 0⟩ : FS)).2.1
    (⟨1, "Buy milk", "2%", ["shopping"], "t"⟩ : Note) (by decide)

/-- C5: deleting an id then looking it up always yields `None`. -/
theorem delete_then_find_none (note_id : Int) (fs : FS) :
    find_note note_id (delete_note note_id fs).1 = none := by
  unfold find_note list_notes load_store
  rw [find_loop_eq_find?, delete_note_notes_eq]
  apply List.find?_eq_none.mpr
  intro n hn
  have := (List.mem_filter.mp hn).2
  simp only [bne_iff_ne, ne_eq, decide_eq_true_eq] at this ⊢
  exact fun h => this (by simpa using h)

/-- C9: `view <id>` prints `Note <id> not found` and exits 1 when the id
is absent, exits 0 when present; `delete <id>` always exits 0, printing
`Deleted.` when a note was removed and `Note not found.` otherwise. -/
theorem main_view_delete_correct (note_id : Int) (fs : FS) :
    ((∀ n ∈ fs.file.notes, n.id ≠ note_id) →
        main_view note_id fs = (1, ["Note " ++ toString note_id ++ " not found"])) ∧
    ((∃ n ∈ fs.file.notes, n.id = note_id) → (main_view note_id fs).1 = 0) ∧
    (main_delete note_id fs).2.1 = 0 ∧
    ((∃ n ∈ fs.file.notes, n.id = note_id) →
        (main_delete note_id fs).2.2 = ["Deleted."]) ∧
    ((∀ n ∈ fs.file.notes, n.id ≠ note_id) →
        (main_delete note_id fs).2.2 = ["Note not found."]) := by
  have hfind : find_note note_id fs = (fs.file.notes).find? (fun n => n.id == note_id) :=
    find_loop_eq_find? note_id fs.file.notes
  refine ⟨?_, ?_, rfl, ?_, ?_⟩
  · intro h
    have : find_note note_id fs = none := by
      rw [hfind]
      apply List.find?_eq_none.mpr
      intro n hn
      simpa using h n hn
    simp [main_view, this]
  · rintro ⟨n, hn, hid⟩
    have : (fs.file.notes.find? (fun n => n.id == note_id)).isSome := by
      apply List.find?_isSome.mpr
      exact ⟨n, hn, by simp [hid]⟩
    rcases Option.isSome_iff_exists.mp this with ⟨m, hm⟩
    simp [main_view, hfind, hm]
  · rintro ⟨n, hn, hid⟩
    have : (delete_note note_id fs).2 = true :=
      (delete_note_ret_iff note_id fs).mpr ⟨n, hn, hid⟩
    simp [main_delete, this]
  · intro h
    have : (delete_note note_id fs).2 = false := by
      rcases Bool.eq_false_or_eq_true (delete_note note_id fs).2 with ht | hf
      · rcases (delete_note_ret_iff note_id fs).mp ht with ⟨n, hn, hid⟩
        exact absurd hid (h n hn)
      · exact hf
    simp [main_delete, this]

/-- C9 witness: on the empty store, `view 5` prints the not-found message
with exit code 1 and `delete 5` prints `Note not found.` with exit code
0. -/
theorem main_view_delete_correct_witness :
    main_view 5 init_fs = (1, ["Note 5 not found"]) ∧
    (main_delete 5 init_fs).2.2 = ["Note not found."] :=
  ⟨(main_view_delete_correct 5 init_fs).1 (by simp [init_fs, initial_store]),
   (main_view_delete_correct 5 init_fs).2.2.2.2 (by simp [init_fs, initial_store])⟩

/-- C10: one `deleteNote` call removes every note carrying the id (even
duplicates introduced by hand-editing), keeps exactly the others in
order, and returns `true` exactly when at least one was removed;
`findNote` returns only the first match in stored order. -/
theorem delete_all_matching_find_first (note_id : Int) (fs : FS) :
    (∀ n ∈ (delete_note note_id fs).1.file.notes, n.id ≠ note_id) ∧
    (delete_note note_id fs).1.file.notes =
      fs.file.notes.filter (fun n => n.id != note_id) ∧
    ((delete_note note_id fs).2 = true ↔ ∃ n ∈ fs.file.notes, n.id = note_id) ∧
    find_note note_id fs = (list_notes fs).find? (fun n => n.id == note_id) := by
  refine ⟨?_, delete_note_notes_eq note_id fs, delete_note_ret_iff note_id fs,
    find_loop_eq_find? note_id (list_notes fs)⟩
  intro n hn
  rw [delete_note_notes_eq] at hn
  have := (List.mem_filter.mp hn).2
  simpa [bne_iff_ne] using this

/-- C10 witness: with two copies of id 1 in the store, `delete 1` leaves
the id-2 note, whose id differs from 1. -/
theorem delete_all_matching_find_first_witness :
    (⟨2, "c", "", [], "t"⟩ : Note).id ≠ 1 :=
  (delete_all_matching_find_first 1
      (⟨⟨3, [⟨1, "a", "", [], "t"⟩, ⟨2, "c", "", [], "t"⟩, ⟨1, "d", "", [], "t"⟩]⟩, 0⟩ : FS)).1
    (⟨2, "c", "", [], "t"⟩ : Note) (by decide)

theorem run_ops_next_id : ∀ (ops : List Op) (fs : FS),
    (run_ops fs ops).file.next_id = fs.file.next_id + (count_adds ops : Int) := by
  intro ops
  induction ops with
  | nil => intro fs; simp [run_ops, count_adds]
  | cons op rest ih =>
      intro fs
      cases op with
      | add t b tg now =>
          have h1 : (apply_op fs (.add t b tg now)).file.next_id = fs.file.next_id + 1 := rfl
          simp only [run_ops, ih, h1, count_adds]
          push_cast
          ring
      | del i =>
          have h1 : (apply_op fs (.del i)).file.next_id = fs.file.next_id :=
            delete_note_next_id i fs
          simp only [run_ops, ih, h1, count_adds]

theorem added_ids_spec : ∀ (ops : List Op) (fs : FS),
    added_ids fs ops =
      (List.range (count_adds ops)).map (fun k : Nat => fs.file.next_id + (k : Int)) := by
  intro ops
  induction ops with
  | nil => intro fs; simp [added_ids, count_adds]
  | cons op rest ih =>
      intro fs
      cases op with
      | add t b tg now =>
          have hid : (add_note t b tg now fs).2.id = fs.file.next_id := rfl
          have hnext : (add_note t b tg now fs).1.file.next_id = fs.file.next_id + 1 := rfl
          simp only [added_ids, hid, ih, hnext, count_adds, List.range_succ_eq_map,
            List.map_cons, List.map_map]
          congr 1
          · simp
          · congr 1
            funext k
            simp only [Function.comp_apply]
            push_cast
            ring
      | del i =>
          have hnext : (delete_note i fs).1.file.next_id = fs.file.next_id :=
            delete_note_next_id i fs
          simp only [added_ids, ih, hnext, count_adds]

theorem run_ops_inv : ∀ (ops : List Op) (fs : FS),
    (∀ n ∈ fs.file.notes, n.id < fs.file.next_id) →
    ∀ n ∈ (run_ops fs ops).file.notes, n.id < (run_ops fs ops).file.next_id := by
  intro ops
  induction ops with
  | nil => intro fs h; exact h
  | cons op rest ih =>
      intro fs h
      apply ih
      cases op with
      | add t b tg now =>
          intro n hn
          have hnotes : (apply_op fs (.add t b tg now)).file.notes =
              fs.file.notes ++ [(add_note t b tg now fs).2] := rfl
          have hnext : (apply_op fs (.add t b tg now)).file.next_id =
              fs.file.next_id + 1 := rfl
          rw [hnotes] at hn
          rw [hnext]
          rcases List.mem_append.mp hn with h1 | h2
          · have := h n h1; omega
          · have : n = (add_note t b tg now fs).2 := by simpa using h2
            subst this
            have : (add_note t b tg now fs).2.id = fs.file.next_id := rfl
            omega
      | del i =>
          intro n hn
          have hnotes : (apply_op fs (.del i)).file.notes =
              fs.file.notes.filter (fun n => n.id != i) := delete_note_notes_eq i fs
          have hnext : (apply_op fs (.del i)).file.next_id = fs.file.next_id :=
            delete_note_next_id i fs
          rw [hnotes] at hn
          rw [hnext]
          exact h n (List.mem_filter.mp hn).1

/-- C2: over any sequence of adds and deletes from the initial store, the
ids handed out are `1, 2, 3, ...` (strictly increasing by one, never
reused), every stored note's id stays below `next_id`, and so does every
id ever handed out. -/
theorem ids_strictly_increasing (ops : List Op) :
    added_ids init_fs ops =
      (List.range (count_adds ops)).map (fun k : Nat => 1 + (k : Int)) ∧
    (added_ids init_fs ops).Nodup ∧
    (∀ n ∈ (run_ops init_fs ops).file.notes,
        n.id < (run_ops init_fs ops).file.next_id) ∧
    (∀ i ∈ added_ids init_fs ops, i < (run_ops init_fs ops).file.next_id) := by
  have hids := added_ids_spec ops init_fs
  have hnext := run_ops_next_id ops init_fs
  have hinit : init_fs.file.next_id = 1 := rfl
  refine ⟨by simpa [hinit] using hids, ?_, ?_, ?_⟩
  · rw [hids]
    refine List.Nodup.map ?_ (List.nodup_range _)
    intro a b hab
    simp only [hinit] at hab
    omega
  · exact run_ops_inv ops init_fs (by intro n hn; simp [init_fs, initial_store] at hn)
  · intro i hi
    rw [hids] at hi
    rcases List.mem_map.mp hi with ⟨k, hk, rfl⟩
    have hk' := List.mem_range.mp hk
    rw [hnext, hinit]
    have : (k : Int) < (count_adds ops : Int) := by exact_mod_cast hk'
    omega

/-- C2 witness: add, delete the note, add again - the second add gets the
fresh id 2, and it is below the final `next_id`. -/
theorem ids_strictly_increasing_witness :
    added_ids init_fs [Op.add "" "" [] "", Op.del 1, Op.add "" "" [] ""] =
      [1, 2] ∧
    (2 : Int) <
      (run_ops init_fs [Op.add "" "" [] "", Op.del 1, Op.add "" "" [] ""]).file.next_id :=
  ⟨by
    have h := (ids_strictly_increasing [Op.add "" "" [] "", Op.del 1, Op.add "" "" [] ""]).1
    simpa using h,
   (ids_strictly_increasing [Op.add "" "" [] "", Op.del 1, Op.add "" "" [] ""]).2.2.2 2
    (by decide)⟩

/-- C8: `save_store` is exactly the two primitive steps "write the full
serialized store to the `.tmp` file in the store's own directory, then
atomically move it over the store path"; after any prefix of those steps
the store path holds either its old complete content or the new complete
serialized store. -/
theorem save_store_atomic (st : Store) (d : Disk) (k : Nat) :
    save_store_steps st =
      [FsOp.write TMP_FILE (store_file_content st),
       FsOp.rename TMP_FILE NOTES_FILE] ∧
    dirname TMP_FILE = dirname NOTES_FILE ∧
    (fs_steps d ((save_store_steps st).take k) NOTES_FILE = d NOTES_FILE ∨
     fs_steps d ((save_store_steps st).take k) NOTES_FILE =
       some (store_file_content st)) := by
  have hne : ¬(NOTES_FILE = TMP_FILE) := by decide
  refine ⟨rfl, by decide, ?_⟩
  match k with
  | 0 => exact Or.inl rfl
  | 1 =>
      left
      simp only [save_store_steps, List.take, fs_steps, fs_step]
      simp [hne]
  | Nat.succ (Nat.succ n) =>
      right
      simp only [save_store_steps, List.take, List.take_nil, fs_steps, fs_step]
      simp [hne]

theorem ws_char_cases (c : Char) (h : isWsChar c = true) :
    c = ' ' ∨ c = '\t' ∨ c = '\n' ∨ c = '\r' := by
  unfold isWsChar at h
  simp only [Bool.or_eq_true, beq_iff_eq] at h
  tauto

theorem ws_not_digit (c : Char) (h : isWsChar c = true) : isDigitChar c = false := by
  rcases ws_char_cases c h with rfl | rfl | rfl | rfl <;> decide

theorem digit_not_ws (c : Char) (h : isDigitChar c = true) : isWsChar c = false := by
  cases hw : isWsChar c
  · rfl
  · rw [ws_not_digit c hw] at h
    cases h

theorem digit_char_cases (c : Char) (h : isDigitChar c = true) :
    c = '0' ∨ c = '1' ∨ c = '2' ∨ c = '3' ∨ c = '4' ∨ c = '5' ∨ c = '6' ∨ c = '7' ∨
    c = '8' ∨ c = '9' := by
  unfold isDigitChar at h
  simp only [Bool.and_eq_true, decide_eq_true_eq] at h
  obtain ⟨hlo, hhi⟩ := h
  have hofn := Char.ofNat_toNat c
  interval_cases hv : c.toNat <;>
    first
      | exact Or.inl hofn.symm
      | exact Or.inr (Or.inl hofn.symm)
      | exact Or.inr (Or.inr (Or.inl hofn.symm))
      | exact Or.inr (Or.inr (Or.inr (Or.inl hofn.symm)))
      | exact Or.inr (Or.inr (Or.inr (Or.inr (Or.inl hofn.symm))))
      | exact Or.inr (Or.inr (Or.inr (Or.inr (Or.inr (Or.inl hofn.symm)))))
      | exact Or.inr (Or.inr (Or.inr (Or.inr (Or.inr (Or.inr (Or.inl hofn.symm))))))
      | exact Or.inr (Or.inr (Or.inr (Or.inr (Or.inr (Or.inr (Or.inr (Or.inl hofn.symm)))))))
      | exact Or.inr (Or.inr (Or.inr (Or.inr (Or.inr (Or.inr (Or.inr (Or.inr (Or.inl hofn.symm))))))))
      | exact Or.inr (Or.inr (Or.inr (Or.inr (Or.inr (Or.inr (Or.inr (Or.inr (Or.inr hofn.symm))))))))

theorem skipWs_not_ws (c : Char) (l : List Char) (h : isWsChar c = false) :
    skipWs (c :: l) = c :: l := by
  simp [skipWs, h]

theorem skipWs_append (ws l : List Char) (h : ∀ c ∈ ws, isWsChar c = true) :
    skipWs (ws ++ l) = skipWs l := by
  induction ws with
  | nil => rfl
  | cons c cs ih =>
      have hc := h c (List.mem_cons_self c cs)
      simp only [List.cons_append, skipWs, hc, if_pos]
      exact ih (fun x hx => h x (List.mem_cons_of_mem c hx))

theorem parseValue_ws (f : Nat) (ws s : List Char) (h : ∀ c ∈ ws, isWsChar c = true) :
    parseValue f (ws ++ s) = parseValue f s := by
  cases f with
  | zero => rfl
  | succ g =>
      show (match skipWs (ws ++ s) with
        | [] => none
        | c :: rest =>
          if c = '"' then
            (parseStringBody rest.length rest).map (fun p => (Json.str (String.mk p.1), p.2))
          else if c = '{' then
            match skipWs rest with
            | '}' :: rest2 => some (.obj [], rest2)
            | _ => (parseMembers g rest).map (fun p => (.obj p.1, p.2))
          else if c = '[' then
            match skipWs rest with
            | ']' :: rest2 => some (.arr [], rest2)
            | _ => (parseElems g rest).map (fun p => (.arr p.1, p.2))
          else if c = 't' then
            match rest with
            | 'r' :: 'u' :: 'e' :: r => some (.bool true, r)
            | _ => none
          else if c = 'f' then
            match rest with
            | 'a' :: 'l' :: 's' :: 'e' :: r => some (.bool false, r)
            | _ => none
          else if c = 'n' then
            match rest with
            | 'u' :: 'l' :: 'l' :: r => some (.null, r)
            | _ => none
          else if c = '-' then
            (parseNat rest).map (fun p => (.num (-(p.1 : Int)), p.2))
          else if isDigitChar c then
            (parseNat (c :: rest)).map (fun p => (.num (p.1 : Int), p.2))
          else none) =
        parseValue (g + 1) s
      rw [skipWs_append ws s h]
      rfl

theorem parseElems_ws (f : Nat) (ws s : List Char) (h : ∀ c ∈ ws, isWsChar c = true) :
    parseElems f (ws ++ s) = parseElems f s := by
  cases f with
  | zero => rfl
  | succ g =>
      show (match parseValue g (ws ++ s) with
        | none => none
        | some (v, r) =>
          match skipWs r with
          | ',' :: r2 => (parseElems g r2).map (fun p => (v :: p.1, p.2))
          | ']' :: r2 => some ([v], r2)
          | _ => none) =
        parseElems (g + 1) s
      rw [parseValue_ws g ws s h]
      rfl

theorem parseMembers_ws (f : Nat) (ws s : List Char) (h : ∀ c ∈ ws, isWsChar c = true) :
    parseMembers f (ws ++ s) = parseMembers f s := by
  cases f with
  | zero => rfl
  | succ g =>
      show (match skipWs (ws ++ s) with
        | '"' :: r =>
          match parseStringBody r.length r with
          | none => none
          | some (k, r2) =>
            match skipWs r2 with
            | ':' :: r3 =>
              match parseValue g r3 with
              | none => none
              | some (v, r4) =>
                match skipWs r4 with
                | ',' :: r5 => (parseMembers g r5).map (fun p => ((String.mk k, v) :: p.1, p.2))
                | '}' :: r5 => some ([(String.mk k, v)], r5)
                | _ => none
            | _ => none
        | _ => none) =
        parseMembers (g + 1) s
      rw [skipWs_append ws s h]
      rfl

theorem pad_ws (lvl : Nat) : ∀ c ∈ pad lvl, isWsChar c = true := by
  intro c hc
  have := List.eq_of_mem_replicate hc
  subst this
  rfl

theorem nl_pad_ws (lvl : Nat) : ∀ c ∈ '\n' :: pad lvl, isWsChar c = true := by
  intro c hc
  rcases List.mem_cons.mp hc with rfl | hm
  · rfl
  · exact pad_ws lvl c hm

theorem nonDigitStart_ws_append (wsc : List Char) (c : Char) (r : List Char)
    (hws : ∀ x ∈ wsc, isWsChar x = true) (hc : isDigitChar c = false) :
    nonDigitStart (wsc ++ c :: r) = true := by
  cases wsc with
  | nil => simp [nonDigitStart, hc]
  | cons w ws =>
      have hw := hws w (List.mem_cons_self w ws)
      simp [nonDigitStart, ws_not_digit w hw]

theorem digitChar_isDigit (d : Nat) (h : d < 10) :
    isDigitChar (Nat.digitChar d) = true := by
  interval_cases d <;> rfl

theorem digitChar_val (d : Nat) (h : d < 10) : (Nat.digitChar d).toNat - 48 = d := by
  interval_cases d <;> rfl

theorem natCharsAux_ne_nil (f n : Nat) (h : n < f) : natCharsAux f n ≠ [] := by
  cases f with
  | zero => omega
  | succ f =>
      unfold natCharsAux
      split <;> simp

theorem natChars_ne_nil (n : Nat) : natChars n ≠ [] :=
  natCharsAux_ne_nil (n + 1) n (by omega)

theorem natCharsAux_all_digits : ∀ (f n : Nat), n < f →
    ∀ c ∈ natCharsAux f n, isDigitChar c = true := by
  intro f
  induction f with
  | zero => intro n hn; omega
  | succ f ih =>
      intro n hn c hc
      unfold natCharsAux at hc
      split at hc
      · next h =>
          rcases List.mem_singleton.mp hc with rfl
          exact digitChar_isDigit n h
      · next h =>
          rcases List.mem_append.mp hc with h1 | h2
          · exact ih (n / 10) (by omega) c h1
          · rcases List.mem_singleton.mp h2 with rfl
            exact digitChar_isDigit (n % 10) (Nat.mod_lt n (by omega))

theorem natChars_all_digits (n : Nat) : ∀ c ∈ natChars n, isDigitChar c = true :=
  natCharsAux_all_digits (n + 1) n (by omega)

theorem foldl_digits_natCharsAux : ∀ (f n : Nat), n < f →
    (natCharsAux f n).foldl (fun a c => a * 10 + (c.toNat - 48)) 0 = n := by
  intro f
  induction f with
  | zero => intro n hn; omega
  | succ f ih =>
      intro n hn
      unfold natCharsAux
      split
      · next h =>
          simp [List.foldl_cons, digitChar_val n h]
      · next h =>
          rw [List.foldl_append]
          rw [ih (n / 10) (by omega)]
          simp only [List.foldl_cons, List.foldl_nil]
          rw [digitChar_val (n % 10) (Nat.mod_lt n (by omega))]
          omega

theorem foldl_digits_natChars (n : Nat) :
    (natChars n).foldl (fun a c => a * 10 + (c.toNat - 48)) 0 = n :=
  foldl_digits_natCharsAux (n + 1) n (by omega)

theorem takeWhile_all_append {p : Char → Bool} (l r : List Char)
    (hl : ∀ c ∈ l, p c = true) (hr : r.takeWhile p = []) :
    (l ++ r).takeWhile p = l := by
  induction l with
  | nil => simpa using hr
  | cons c cs ih =>
      have hc := hl c (List.mem_cons_self c cs)
      simp only [List.cons_append, List.takeWhile_cons, hc, if_pos]
      rw [ih (fun x hx => hl x (List.mem_cons_of_mem c hx))]

theorem nonDigitStart_takeWhile (r : List Char) (h : nonDigitStart r = true) :
    r.takeWhile isDigitChar = [] := by
  cases r with
  | nil => rfl
  | cons c cs =>
      simp only [nonDigitStart, Bool.not_eq_true'] at h
      simp [List.takeWhile_cons, h]

theorem parseNat_natChars (n : Nat) (rest : List Char)
    (h : nonDigitStart rest = true) :
    parseNat (natChars n ++ rest) = some (n, rest) := by
  unfold parseNat
  have htw : (natChars n ++ rest).takeWhile isDigitChar = natChars n :=
    takeWhile_all_append _ _ (natChars_all_digits n) (nonDigitStart_takeWhile rest h)
  rw [htw]
  have hne : (natChars n).isEmpty = false := by
    cases hx : natChars n with
    | nil => exact absurd hx (natChars_ne_nil n)
    | cons a as => rfl
  simp only [hne, Bool.false_eq_true, if_false]
  rw [foldl_digits_natChars n, List.drop_left]

theorem parseHex_hexChar (d : Nat) (h : d < 16) : parseHex (hexChar d) = some d := by
  interval_cases d <;> rfl

theorem parseStringBody_escape :
    ∀ (cs : List Char) (f : Nat) (rest : List Char),
      (escapeChars cs).length < f →
      parseStringBody f (escapeChars cs ++ '"' :: rest) = some (cs, rest) := by
  intro cs
  induction cs with
  | nil =>
      intro f rest hf
      match f, hf with
      | f + 1, _ => rfl
  | cons c cs ih =>
      intro f rest hf
      cases f with
      | zero => exact absurd hf (Nat.not_lt_zero _)
      | succ f =>
          have hlen1 : 1 ≤ (escapeChar c).length := by
            unfold escapeChar
            repeat' split
            all_goals simp
          have hcs : (escapeChars cs).length < f := by
            have htot : (escapeChars (c :: cs)).length =
                (escapeChar c).length + (escapeChars cs).length := by
              show (escapeChar c ++ escapeChars cs).length = _
              rw [List.length_append]
            omega
          show parseStringBody (f + 1) ((escapeChar c ++ escapeChars cs) ++ '"' :: rest) = _
          rw [List.append_assoc]
          by_cases h1 : c = '"'
          · subst h1
            have st : parseStringBody (f + 1) ('\\' :: '"' :: (escapeChars cs ++ '"' :: rest)) =
                (parseStringBody f (escapeChars cs ++ '"' :: rest)).map
                  (fun p => ('"' :: p.1, p.2)) := rfl
            exact st.trans (by rw [ih f rest hcs]; rfl)
          by_cases h2 : c = '\\'
          · subst h2
            have st : parseStringBody (f + 1) ('\\' :: '\\' :: (escapeChars cs ++ '"' :: rest)) =
                (parseStringBody f (escapeChars cs ++ '"' :: rest)).map
                  (fun p => ('\\' :: p.1, p.2)) := rfl
            exact st.trans (by rw [ih f rest hcs]; rfl)
          by_cases h3 : c = '\n'
          · subst h3
            have st : parseStringBody (f + 1) ('\\' :: 'n' :: (escapeChars cs ++ '"' :: rest)) =
                (parseStringBody f (escapeChars cs ++ '"' :: rest)).map
                  (fun p => ('\n' :: p.1, p.2)) := rfl
            exact st.trans (by rw [ih f rest hcs]; rfl)
          by_cases h4 : c = '\t'
          · subst h4
            have st : parseStringBody (f + 1) ('\\' :: 't' :: (escapeChars cs ++ '"' :: rest)) =
                (parseStringBody f (escapeChars cs ++ '"' :: rest)).map
                  (fun p => ('\t' :: p.1, p.2)) := rfl
            exact st.trans (by rw [ih f rest hcs]; rfl)
          by_cases h5 : c = '\r'
          · subst h5
            have st : parseStringBody (f + 1) ('\\' :: 'r' :: (escapeChars cs ++ '"' :: rest)) =
                (parseStringBody f (escapeChars cs ++ '"' :: rest)).map
                  (fun p => ('\r' :: p.1, p.2)) := rfl
            exact st.trans (by rw [ih f rest hcs]; rfl)
          by_cases h6 : c = '\x08'
          · subst h6
            have st : parseStringBody (f + 1) ('\\' :: 'b' :: (escapeChars cs ++ '"' :: rest)) =
                (parseStringBody f (escapeChars cs ++ '"' :: rest)).map
                  (fun p => ('\x08' :: p.1, p.2)) := rfl
            exact st.trans (by rw [ih f rest hcs]; rfl)
          by_cases h7 : c = '\x0c'
          · subst h7
            have st : parseStringBody (f + 1) ('\\' :: 'f' :: (escapeChars cs ++ '"' :: rest)) =
                (parseStringBody f (escapeChars cs ++ '"' :: rest)).map
                  (fun p => ('\x0c' :: p.1, p.2)) := rfl
            exact st.trans (by rw [ih f rest hcs]; rfl)
          by_cases hlt : c.toNat < 32
          · have he : escapeChar c =
                ['\\', 'u', '0', '0', hexChar (c.toNat / 16), hexChar (c.toNat % 16)] := by
              unfold escapeChar
              rw [if_neg h1, if_neg h2, if_neg h3, if_neg h4, if_neg h5, if_neg h6,
                if_neg h7, if_pos hlt]
            rw [he]
            have st : parseStringBody (f + 1) ('\\' :: 'u' :: '0' :: '0' ::
                  hexChar (c.toNat / 16) :: hexChar (c.toNat % 16) ::
                  (escapeChars cs ++ '"' :: rest)) =
                (match parseHex '0', parseHex '0', parseHex (hexChar (c.toNat / 16)),
                    parseHex (hexChar (c.toNat % 16)) with
                 | some a, some b, some c4, some d =>
                     (parseStringBody f (escapeChars cs ++ '"' :: rest)).map
                       (fun p =>
                         (Char.ofNat (((a * 16 + b) * 16 + c4) * 16 + d) :: p.1, p.2))
                 | _, _, _, _ => none) := rfl
            refine st.trans ?_
            rw [parseHex_hexChar (c.toNat / 16) (by omega),
              parseHex_hexChar (c.toNat % 16) (by omega)]
            show (parseStringBody f (escapeChars cs ++ '"' :: rest)).map
                (fun p =>
                  (Char.ofNat (((0 * 16 + 0) * 16 + c.toNat / 16) * 16 + c.toNat % 16)
                    :: p.1, p.2)) = _
            rw [ih f rest hcs]
            have hv : ((0 * 16 + 0) * 16 + c.toNat / 16) * 16 + c.toNat % 16 = c.toNat := by
              omega
            rw [hv, Char.ofNat_toNat]
            rfl
          · have he : escapeChar c = [c] := by
              unfold escapeChar
              rw [if_neg h1, if_neg h2, if_neg h3, if_neg h4, if_neg h5, if_neg h6,
                if_neg h7, if_neg hlt]
            rw [he]
            show parseStringBody (f + 1) (c :: (escapeChars cs ++ '"' :: rest)) = _
            simp only [parseStringBody]
            rw [if_neg h1, if_neg h2, if_neg hlt, ih f rest hcs]
            rfl

theorem jfuel_pos : ∀ j : Json, 1 ≤ jfuel j := by
  intro j
  cases j <;> simp [jfuel]

theorem digit_ne (c x : Char) (h : isDigitChar c = true) (hx : isDigitChar x = false) :
    c ≠ x := by
  intro e
  subst e
  rw [h] at hx
  cases hx

theorem dumpVal_head (lvl : Nat) (j : Json) :
    ∃ c cs, dumpVal lvl j = c :: cs ∧ (c ≠ '}' ∧ c ≠ ']') ∧ isWsChar c = false := by
  cases j with
  | num n =>
      show ∃ c cs, intChars n = c :: cs ∧ _
      unfold intChars
      split
      · refine ⟨'-', _, rfl, ⟨?_, ?_⟩, ?_⟩ <;> decide
      · next hn =>
          obtain ⟨c, cs, hx⟩ : ∃ c cs, natChars n.toNat = c :: cs := by
            cases hy : natChars n.toNat with
            | nil => exact absurd hy (natChars_ne_nil _)
            | cons a as => exact ⟨a, as, rfl⟩
          have hd : isDigitChar c = true :=
            natChars_all_digits n.toNat c (by rw [hx]; exact List.mem_cons_self _ _)
          exact ⟨c, cs, hx, ⟨digit_ne c '}' hd (by decide), digit_ne c ']' hd (by decide)⟩,
            digit_not_ws c hd⟩
  | str s => refine ⟨'"', _, rfl, ⟨?_, ?_⟩, ?_⟩ <;> decide
  | null => refine ⟨'n', _, rfl, ⟨?_, ?_⟩, ?_⟩ <;> decide
  | bool b =>
      cases b with
      | true => refine ⟨'t', _, rfl, ⟨?_, ?_⟩, ?_⟩ <;> decide
      | false => refine ⟨'f', _, rfl, ⟨?_, ?_⟩, ?_⟩ <;> decide
  | arr l =>
      cases l with
      | nil => refine ⟨'[', _, rfl, ⟨?_, ?_⟩, ?_⟩ <;> decide
      | cons x xs => refine ⟨'[', _, rfl, ⟨?_, ?_⟩, ?_⟩ <;> decide
  | obj l =>
      cases l with
      | nil => refine ⟨'\x7b', _, rfl, ⟨?_, ?_⟩, ?_⟩ <;> decide
      | cons kv kvs => refine ⟨'\x7b', _, rfl, ⟨?_, ?_⟩, ?_⟩ <;> decide

theorem parseElems_nlpad (f lvl : Nat) (s : List Char) :
    parseElems f ('\n' :: (pad lvl ++ s)) = parseElems f s := by
  have h := parseElems_ws f ('\n' :: pad lvl) s (nl_pad_ws lvl)
  simpa [List.cons_append] using h

theorem parseMembers_nlpad (f lvl : Nat) (s : List Char) :
    parseMembers f ('\n' :: (pad lvl ++ s)) = parseMembers f s := by
  have h := parseMembers_ws f ('\n' :: pad lvl) s (nl_pad_ws lvl)
  simpa [List.cons_append] using h

theorem parseValue_space (f : Nat) (s : List Char) :
    parseValue f (' ' :: s) = parseValue f s := by
  have h := parseValue_ws f [' '] s (by intro c hc; rcases List.mem_singleton.mp hc with rfl; rfl)
  simpa using h

set_option maxHeartbeats 1000000
set_option maxRecDepth 16384

theorem parse_dump_roundtrip : ∀ fuel : Nat,
    (∀ (j : Json) (lvl : Nat) (rest : List Char),
      jfuel j ≤ fuel → nonDigitStart rest = true →
      parseValue fuel (dumpVal lvl j ++ rest) = some (j, rest)) ∧
    (∀ (x : Json) (xs : List Json) (lvl : Nat) (wsc rest : List Char),
      elemsFuel (x :: xs) ≤ fuel → (∀ c ∈ wsc, isWsChar c = true) →
      nonDigitStart rest = true →
      parseElems fuel
          (dumpVal lvl x ++ (dumpElemsRest lvl xs ++ (wsc ++ ']' :: rest))) =
        some (x :: xs, rest)) ∧
    (∀ (k : String) (v : Json) (kvs : List (String × Json)) (lvl : Nat)
        (wsc rest : List Char),
      membersFuel ((k, v) :: kvs) ≤ fuel → (∀ c ∈ wsc, isWsChar c = true) →
      nonDigitStart rest = true →
      parseMembers fuel
          (dumpMember lvl (k, v) ++ (dumpMembersRest lvl kvs ++ (wsc ++ '}' :: rest))) =
        some ((k, v) :: kvs, rest)) := by
  intro fuel
  induction fuel with
  | zero =>
      refine ⟨?_, ?_, ?_⟩
      · intro j lvl rest hf _
        exact absurd hf (by have := jfuel_pos j; omega)
      · intro x xs lvl wsc rest hf _ _
        have := jfuel_pos x
        simp only [elemsFuel] at hf
        omega
      · intro k v kvs lvl wsc rest hf _ _
        have := jfuel_pos v
        simp only [membersFuel] at hf
        omega
  | succ f ih =>
      obtain ⟨ihP, ihQ, ihR⟩ := ih
      refine ⟨?_, ?_, ?_⟩
      · intro j lvl rest hf hrest
        cases j with
        | null => rfl
        | bool b => cases b with
            | false => rfl
            | true => rfl
        | str s =>
            show parseValue (f + 1)
              (('"' :: (escapeChars s.data ++ ['"'])) ++ rest) = _
            have heq : ('"' :: (escapeChars s.data ++ ['"'])) ++ rest =
                '"' :: (escapeChars s.data ++ '"' :: rest) := by
              simp
            rw [heq]
            have st : parseValue (f + 1) ('"' :: (escapeChars s.data ++ '"' :: rest)) =
                (parseStringBody (escapeChars s.data ++ '"' :: rest).length
                  (escapeChars s.data ++ '"' :: rest)).map
                  (fun p => (Json.str (String.mk p.1), p.2)) := rfl
            rw [st, parseStringBody_escape s.data _ rest
              (by simp [List.length_append])]
            rfl
        | num n =>
            show parseValue (f + 1) (intChars n ++ rest) = _
            unfold intChars
            split
            · next hn =>
                show parseValue (f + 1) ('-' :: (natChars n.natAbs ++ rest)) = _
                have st : parseValue (f + 1) ('-' :: (natChars n.natAbs ++ rest)) =
                    (parseNat (natChars n.natAbs ++ rest)).map
                      (fun p => (Json.num (-(p.1 : Int)), p.2)) := rfl
                rw [st, parseNat_natChars _ rest hrest]
                have hv : -((n.natAbs : Nat) : Int) = n := by omega
                simp only [Option.map_some']
                rw [hv]
            · next hn =>
                obtain ⟨c, cs, hx⟩ : ∃ c cs, natChars n.toNat = c :: cs := by
                  cases hy : natChars n.toNat with
                  | nil => exact absurd hy (natChars_ne_nil _)
                  | cons a as => exact ⟨a, as, rfl⟩
                have hd : isDigitChar c = true :=
                  natChars_all_digits n.toNat c (by rw [hx]; exact List.mem_cons_self _ _)
                have key : ∀ t : List Char, parseValue (f + 1) (c :: t) =
                    (parseNat (c :: t)).map (fun p => (Json.num ((p.1 : Nat) : Int), p.2)) := by
                  intro t
                  rcases digit_char_cases c hd with
                    rfl | rfl | rfl | rfl | rfl | rfl | rfl | rfl | rfl | rfl <;> rfl
                rw [hx]
                show parseValue (f + 1) (c :: (cs ++ rest)) = _
                rw [key (cs ++ rest)]
                have hback : c :: (cs ++ rest) = natChars n.toNat ++ rest := by
                  rw [hx, List.cons_append]
                rw [show (c :: (cs ++ rest)) = natChars n.toNat ++ rest from hback,
                  parseNat_natChars _ rest hrest]
                have hv : ((n.toNat : Nat) : Int) = n := Int.toNat_of_nonneg (by omega)
                simp only [Option.map_some']
                rw [hv]
        | arr l =>
            cases l with
            | nil => rfl
            | cons x xs =>
                show parseValue (f + 1)
                  (('[' :: '\n' :: (pad (lvl + 1) ++ dumpVal (lvl + 1) x ++
                    dumpElemsRest (lvl + 1) xs ++ '\n' :: (pad lvl ++ [']']))) ++ rest) = _
                simp only [List.cons_append, List.append_assoc, List.singleton_append,
                  List.nil_append]
                obtain ⟨c, cs, hx, ⟨hcrc, hcrb⟩, hcw⟩ := dumpVal_head (lvl + 1) x
                have hsk : skipWs ('\n' :: (pad (lvl + 1) ++ (dumpVal (lvl + 1) x ++
                      (dumpElemsRest (lvl + 1) xs ++ ('\n' :: (pad lvl ++ (']' :: rest))))))) =
                    c :: (cs ++ (dumpElemsRest (lvl + 1) xs ++
                      ('\n' :: (pad lvl ++ (']' :: rest))))) := by
                  show skipWs (pad (lvl + 1) ++ (dumpVal (lvl + 1) x ++
                      (dumpElemsRest (lvl + 1) xs ++ ('\n' :: (pad lvl ++ (']' :: rest)))))) = _
                  rw [skipWs_append _ _ (pad_ws (lvl + 1)), hx, List.cons_append,
                    skipWs_not_ws c _ hcw]
                have harm : parseValue (f + 1) ('[' :: ('\n' :: (pad (lvl + 1) ++
                      (dumpVal (lvl + 1) x ++ (dumpElemsRest (lvl + 1) xs ++
                        ('\n' :: (pad lvl ++ (']' :: rest)))))))) =
                    (parseElems f ('\n' :: (pad (lvl + 1) ++ (dumpVal (lvl + 1) x ++
                      (dumpElemsRest (lvl + 1) xs ++ ('\n' :: (pad lvl ++ (']' :: rest)))))))).map
                      (fun p => (Json.arr p.1, p.2)) := by
                  have h1 : parseValue (f + 1) ('[' :: ('\n' :: (pad (lvl + 1) ++
                      (dumpVal (lvl + 1) x ++ (dumpElemsRest (lvl + 1) xs ++
                        ('\n' :: (pad lvl ++ (']' :: rest)))))))) =
                      (match skipWs ('\n' :: (pad (lvl + 1) ++ (dumpVal (lvl + 1) x ++
                        (dumpElemsRest (lvl + 1) xs ++
                          ('\n' :: (pad lvl ++ (']' :: rest))))))) with
                       | ']' :: rest2 => some (Json.arr [], rest2)
                       | _ => (parseElems f ('\n' :: (pad (lvl + 1) ++ (dumpVal (lvl + 1) x ++
                           (dumpElemsRest (lvl + 1) xs ++
                             ('\n' :: (pad lvl ++ (']' :: rest)))))))).map
                           (fun p => (Json.arr p.1, p.2))) := rfl
                  rw [h1, hsk]
                  split
                  · next x1 rest2 heq =>
                      exfalso
                      rw [List.cons.injEq] at heq
                      exact hcrb heq.1
                  · rfl
                rw [harm, parseElems_nlpad f (lvl + 1)]
                have hq := ihQ x xs (lvl + 1) ('\n' :: pad lvl) rest
                  (by simp only [jfuel] at hf; omega) (nl_pad_ws lvl) hrest
                simp only [List.cons_append, List.append_assoc] at hq
                rw [hq]
                rfl
        | obj l =>
            cases l with
            | nil => rfl
            | cons kv kvs =>
                obtain ⟨k, v⟩ := kv
                show parseValue (f + 1)
                  (('{' :: '\n' :: (pad (lvl + 1) ++ dumpMember (lvl + 1) (k, v) ++
                    dumpMembersRest (lvl + 1) kvs ++ '\n' :: (pad lvl ++ ['}']))) ++ rest) = _
                simp only [List.cons_append, List.append_assoc, List.singleton_append,
                  List.nil_append]
                have hm : dumpMember (lvl + 1) (k, v) =
                    '"' :: (escapeChars k.data ++ '"' :: ':' :: ' ' :: dumpVal (lvl + 1) v) := rfl
                have hsk : skipWs ('\n' :: (pad (lvl + 1) ++ (dumpMember (lvl + 1) (k, v) ++
                      (dumpMembersRest (lvl + 1) kvs ++ ('\n' :: (pad lvl ++ ('}' :: rest))))))) =
                    '"' :: (escapeChars k.data ++ '"' :: ':' :: ' ' :: dumpVal (lvl + 1) v ++
                      (dumpMembersRest (lvl + 1) kvs ++ ('\n' :: (pad lvl ++ ('}' :: rest))))) := by
                  show skipWs (pad (lvl + 1) ++ (dumpMember (lvl + 1) (k, v) ++
                      (dumpMembersRest (lvl + 1) kvs ++ ('\n' :: (pad lvl ++ ('}' :: rest)))))) = _
                  rw [skipWs_append _ _ (pad_ws (lvl + 1)), hm, List.cons_append,
                    skipWs_not_ws '"' _ (by decide)]
                have harm : parseValue (f + 1) ('{' :: ('\n' :: (pad (lvl + 1) ++
                      (dumpMember (lvl + 1) (k, v) ++ (dumpMembersRest (lvl + 1) kvs ++
                        ('\n' :: (pad lvl ++ ('}' :: rest)))))))) =
                    (parseMembers f ('\n' :: (pad (lvl + 1) ++ (dumpMember (lvl + 1) (k, v) ++
                      (dumpMembersRest (lvl + 1) kvs ++
                        ('\n' :: (pad lvl ++ ('}' :: rest)))))))).map
                      (fun p => (Json.obj p.1, p.2)) := by
                  have h1 : parseValue (f + 1) ('{' :: ('\n' :: (pad (lvl + 1) ++
                      (dumpMember (lvl + 1) (k, v) ++ (dumpMembersRest (lvl + 1) kvs ++
                        ('\n' :: (pad lvl ++ ('}' :: rest)))))))) =
                      (match skipWs ('\n' :: (pad (lvl + 1) ++ (dumpMember (lvl + 1) (k, v) ++
                        (dumpMembersRest (lvl + 1) kvs ++
                          ('\n' :: (pad lvl ++ ('}' :: rest))))))) with
                       | '}' :: rest2 => some (Json.obj [], rest2)
                       | _ => (parseMembers f ('\n' :: (pad (lvl + 1) ++
                           (dumpMember (lvl + 1) (k, v) ++ (dumpMembersRest (lvl + 1) kvs ++
                             ('\n' :: (pad lvl ++ ('}' :: rest)))))))).map
                           (fun p => (Json.obj p.1, p.2))) := rfl
                  rw [h1, hsk]
                  split
                  · next heq =>
                      exfalso
                      rw [List.cons.injEq] at heq
                      exact absurd heq.1 (by decide)
                  · rfl
                rw [harm, parseMembers_nlpad f (lvl + 1)]
                have hr := ihR k v kvs (lvl + 1) ('\n' :: pad lvl) rest
                  (by simp only [jfuel] at hf; omega) (nl_pad_ws lvl) hrest
                simp only [List.cons_append, List.append_assoc] at hr
                rw [hr]
                rfl
      · intro x xs lvl wsc rest hf hws hrest
        have hfx : jfuel x ≤ f := by
          simp only [elemsFuel] at hf; omega
        have hTAIL : nonDigitStart (dumpElemsRest lvl xs ++ (wsc ++ ']' :: rest)) = true := by
          cases xs with
          | nil =>
              show nonDigitStart (wsc ++ ']' :: rest) = true
              exact nonDigitStart_ws_append wsc ']' rest hws (by decide)
          | cons y ys => rfl
        have st : parseElems (f + 1)
            (dumpVal lvl x ++ (dumpElemsRest lvl xs ++ (wsc ++ ']' :: rest))) =
            (match parseValue f
                (dumpVal lvl x ++ (dumpElemsRest lvl xs ++ (wsc ++ ']' :: rest))) with
             | none => none
             | some (v, r) =>
               match skipWs r with
               | ',' :: r2 => (parseElems f r2).map (fun p => (v :: p.1, p.2))
               | ']' :: r2 => some ([v], r2)
               | _ => none) := rfl
        rw [st, ihP x lvl _ hfx hTAIL]
        show (match skipWs (dumpElemsRest lvl xs ++ (wsc ++ ']' :: rest)) with
              | ',' :: r2 => (parseElems f r2).map (fun p => (x :: p.1, p.2))
              | ']' :: r2 => some ([x], r2)
              | _ => none) = some (x :: xs, rest)
        cases xs with
        | nil =>
            have hsk2 : skipWs (dumpElemsRest lvl [] ++ (wsc ++ ']' :: rest)) =
                ']' :: rest := by
              show skipWs (wsc ++ ']' :: rest) = ']' :: rest
              rw [skipWs_append _ _ hws]
              exact skipWs_not_ws ']' rest (by decide)
            rw [hsk2]
            rfl
        | cons y ys =>
            have hshape : dumpElemsRest lvl (y :: ys) ++ (wsc ++ (']' :: rest)) =
                ',' :: '\n' :: (pad lvl ++ (dumpVal lvl y ++
                  (dumpElemsRest lvl ys ++ (wsc ++ (']' :: rest))))) := by
              show (',' :: '\n' :: (pad lvl ++ dumpVal lvl y ++ dumpElemsRest lvl ys)) ++
                  (wsc ++ (']' :: rest)) = _
              simp only [List.cons_append, List.append_assoc]
            rw [hshape, skipWs_not_ws ',' _ (by decide)]
            show (parseElems f ('\n' :: (pad lvl ++ (dumpVal lvl y ++
                (dumpElemsRest lvl ys ++ (wsc ++ (']' :: rest))))))).map
                (fun p => (x :: p.1, p.2)) = some (x :: y :: ys, rest)
            rw [parseElems_nlpad f lvl]
            have hq2 := ihQ y ys lvl wsc rest
              (by simp only [elemsFuel] at hf ⊢; have := jfuel_pos x; omega) hws hrest
            rw [hq2]
            rfl
      · intro k v kvs lvl wsc rest hf hws hrest
        have hfv : jfuel v ≤ f := by
          simp only [membersFuel] at hf; omega
        have hTAIL : nonDigitStart (dumpMembersRest lvl kvs ++ (wsc ++ '}' :: rest)) = true := by
          cases kvs with
          | nil =>
              show nonDigitStart (wsc ++ '}' :: rest) = true
              exact nonDigitStart_ws_append wsc '}' rest hws (by decide)
          | cons kv2 kvs2 => rfl
        have hshape : dumpMember lvl (k, v) ++ (dumpMembersRest lvl kvs ++ (wsc ++ '}' :: rest)) =
            '"' :: (escapeChars k.data ++ '"' :: ':' :: ' ' ::
              (dumpVal lvl v ++ (dumpMembersRest lvl kvs ++ (wsc ++ '}' :: rest)))) := by
          show ('"' :: (escapeChars k.data ++ '"' :: ':' :: ' ' :: dumpVal lvl v)) ++
              (dumpMembersRest lvl kvs ++ (wsc ++ '}' :: rest)) = _
          simp only [List.cons_append, List.append_assoc]
        rw [hshape]
        have st : ∀ r : List Char, parseMembers (f + 1) ('"' :: r) =
            (match parseStringBody r.length r with
             | none => none
             | some (k1, r2) =>
               match skipWs r2 with
               | ':' :: r3 =>
                 match parseValue f r3 with
                 | none => none
                 | some (v1, r4) =>
                   match skipWs r4 with
                   | ',' :: r5 =>
                       (parseMembers f r5).map (fun p => ((String.mk k1, v1) :: p.1, p.2))
                   | '}' :: r5 => some ([(String.mk k1, v1)], r5)
                   | _ => none
               | _ => none) := fun r => rfl
        rw [st]
        have hlen : (escapeChars k.data).length <
            (escapeChars k.data ++ '"' :: ':' :: ' ' ::
              (dumpVal lvl v ++ (dumpMembersRest lvl kvs ++ (wsc ++ '}' :: rest)))).length := by
          simp [List.length_append]
        rw [parseStringBody_escape k.data _ _ hlen]
        show (match skipWs (':' :: ' ' ::
              (dumpVal lvl v ++ (dumpMembersRest lvl kvs ++ (wsc ++ '}' :: rest)))) with
          | ':' :: r3 =>
            match parseValue f r3 with
            | none => none
            | some (v1, r4) =>
              match skipWs r4 with
              | ',' :: r5 =>
                  (parseMembers f r5).map (fun p => ((String.mk k.data, v1) :: p.1, p.2))
              | '}' :: r5 => some ([(String.mk k.data, v1)], r5)
              | _ => none
          | _ => none) = some ((k, v) :: kvs, rest)
        rw [skipWs_not_ws ':' _ (by decide)]
        show (match parseValue f (' ' ::
              (dumpVal lvl v ++ (dumpMembersRest lvl kvs ++ (wsc ++ '}' :: rest)))) with
          | none => none
          | some (v1, r4) =>
            match skipWs r4 with
            | ',' :: r5 =>
                (parseMembers f r5).map (fun p => ((String.mk k.data, v1) :: p.1, p.2))
            | '}' :: r5 => some ([(String.mk k.data, v1)], r5)
            | _ => none) = some ((k, v) :: kvs, rest)
        rw [parseValue_space, ihP v lvl _ hfv hTAIL]
        show (match skipWs (dumpMembersRest lvl kvs ++ (wsc ++ '}' :: rest)) with
          | ',' :: r5 =>
              (parseMembers f r5).map (fun p => ((String.mk k.data, v) :: p.1, p.2))
          | '}' :: r5 => some ([(String.mk k.data, v)], r5)
          | _ => none) = some ((k, v) :: kvs, rest)
        cases kvs with
        | nil =>
            have hsk4 : skipWs (dumpMembersRest lvl [] ++ (wsc ++ '}' :: rest)) =
                '}' :: rest := by
              show skipWs (wsc ++ '}' :: rest) = '}' :: rest
              rw [skipWs_append _ _ hws]
              exact skipWs_not_ws '}' rest (by decide)
            rw [hsk4]
            rfl
        | cons kv2 kvs2 =>
            obtain ⟨k2, v2⟩ := kv2
            have hshape2 : dumpMembersRest lvl ((k2, v2) :: kvs2) ++ (wsc ++ ('}' :: rest)) =
                ',' :: '\n' :: (pad lvl ++ (dumpMember lvl (k2, v2) ++
                  (dumpMembersRest lvl kvs2 ++ (wsc ++ ('}' :: rest))))) := by
              show (',' :: '\n' :: (pad lvl ++ dumpMember lvl (k2, v2) ++
                  dumpMembersRest lvl kvs2)) ++ (wsc ++ ('}' :: rest)) = _
              simp only [List.cons_append, List.append_assoc]
            rw [hshape2, skipWs_not_ws ',' _ (by decide)]
            show (parseMembers f ('\n' :: (pad lvl ++ (dumpMember lvl (k2, v2) ++
                (dumpMembersRest lvl kvs2 ++ (wsc ++ ('}' :: rest))))))).map
                (fun p => ((String.mk k.data, v) :: p.1, p.2)) =
              some ((k, v) :: (k2, v2) :: kvs2, rest)
            rw [parseMembers_nlpad f lvl]
            have hr2 := ihR k2 v2 kvs2 lvl wsc rest
              (by simp only [membersFuel] at hf ⊢; have := jfuel_pos v; omega) hws hrest
            rw [hr2]
            rfl

theorem pad_len (lvl : Nat) : (pad lvl).length = 2 * lvl := by
  simp [pad]

theorem dump_fuel_le : ∀ n : Nat,
    (∀ (j : Json) (lvl : Nat), jfuel j ≤ n → jfuel j ≤ (dumpVal lvl j).length) ∧
    (∀ (xs : List Json) (lvl : Nat), elemsFuel xs ≤ n →
      elemsFuel xs ≤ (dumpElemsRest lvl xs).length) ∧
    (∀ (kvs : List (String × Json)) (lvl : Nat), membersFuel kvs ≤ n →
      membersFuel kvs ≤ (dumpMembersRest lvl kvs).length) := by
  intro n
  induction n with
  | zero =>
      refine ⟨?_, ?_, ?_⟩
      · intro j lvl h
        exact absurd h (by have := jfuel_pos j; omega)
      · intro xs lvl h
        cases xs with
        | nil => simp [elemsFuel]
        | cons y ys =>
            exact absurd h (by have := jfuel_pos y; simp only [elemsFuel]; omega)
      · intro kvs lvl h
        cases kvs with
        | nil => simp [membersFuel]
        | cons kv kvs2 =>
            exact absurd h (by have := jfuel_pos kv.2; simp only [membersFuel]; omega)
  | succ n ih =>
      obtain ⟨ihP, ihQ, ihR⟩ := ih
      refine ⟨?_, ?_, ?_⟩
      · intro j lvl h
        cases j with
        | null => simp [jfuel, dumpVal]
        | bool b => cases b <;> simp [jfuel, dumpVal]
        | num m =>
            simp only [jfuel, dumpVal]
            have : intChars m ≠ [] := by
              unfold intChars
              split
              · simp
              · exact natChars_ne_nil _
            have := List.length_pos.mpr this
            omega
        | str s => simp [jfuel, dumpVal]
        | arr l =>
            cases l with
            | nil => simp [jfuel, elemsFuel, dumpVal]
            | cons x xs =>
                have hx : jfuel x ≤ (dumpVal (lvl + 1) x).length := by
                  apply ihP
                  simp only [jfuel, elemsFuel] at h
                  omega
                have hxs : elemsFuel xs ≤ (dumpElemsRest (lvl + 1) xs).length := by
                  apply ihQ
                  have := jfuel_pos x
                  simp only [jfuel, elemsFuel] at h
                  omega
                simp only [jfuel, elemsFuel, dumpVal, List.length_cons, List.length_append,
                  pad_len, List.length_singleton]
                omega
        | obj l =>
            cases l with
            | nil => simp [jfuel, membersFuel, dumpVal]
            | cons kv kvs =>
                have hv : jfuel kv.2 ≤ (dumpVal (lvl + 1) kv.2).length := by
                  apply ihP
                  simp only [jfuel, membersFuel] at h
                  omega
                have hkvs : membersFuel kvs ≤ (dumpMembersRest (lvl + 1) kvs).length := by
                  apply ihR
                  have := jfuel_pos kv.2
                  simp only [jfuel, membersFuel] at h
                  omega
                obtain ⟨k, v⟩ := kv
                have hm : (dumpMember (lvl + 1) (k, v)).length =
                    1 + (escapeChars k.data).length + 3 + (dumpVal (lvl + 1) v).length := by
                  show ('"' :: (escapeChars k.data ++ '"' :: ':' :: ' ' ::
                    dumpVal (lvl + 1) v)).length = _
                  simp only [List.length_cons, List.length_append]
                  omega
                simp only [jfuel, membersFuel, dumpVal, List.length_cons, List.length_append,
                  pad_len, List.length_singleton] at hv hkvs ⊢
                omega
      · intro xs lvl h
        cases xs with
        | nil => simp [elemsFuel]
        | cons y ys =>
            have hy : jfuel y ≤ (dumpVal lvl y).length := by
              apply ihP
              simp only [elemsFuel] at h
              omega
            have hys : elemsFuel ys ≤ (dumpElemsRest lvl ys).length := by
              apply ihQ
              have := jfuel_pos y
              simp only [elemsFuel] at h
              omega
            simp only [elemsFuel, dumpElemsRest, List.length_cons, List.length_append, pad_len]
            omega
      · intro kvs lvl h
        cases kvs with
        | nil => simp [membersFuel]
        | cons kv kvs2 =>
            have hv : jfuel kv.2 ≤ (dumpVal lvl kv.2).length := by
              apply ihP
              simp only [membersFuel] at h
              omega
            have hkvs2 : membersFuel kvs2 ≤ (dumpMembersRest lvl kvs2).length := by
              apply ihR
              have := jfuel_pos kv.2
              simp only [membersFuel] at h
              omega
            obtain ⟨k, v⟩ := kv
            have hm : (dumpMember lvl (k, v)).length =
                1 + (escapeChars k.data).length + 3 + (dumpVal lvl v).length := by
              show ('"' :: (escapeChars k.data ++ '"' :: ':' :: ' ' ::
                dumpVal lvl v)).length = _
              simp only [List.length_cons, List.length_append]
              omega
            simp only [membersFuel, dumpMembersRest, List.length_cons, List.length_append,
              pad_len] at hv hkvs2 ⊢
            omega

theorem dump_roundtrip (j : Json) : json_loads (json_dumps j) = some j := by
  have hfuel : jfuel j ≤ (dumpVal 0 j).length + 1 := by
    have := (dump_fuel_le (jfuel j)).1 j 0 le_rfl
    omega
  have hmain := (parse_dump_roundtrip ((dumpVal 0 j).length + 1)).1 j 0 [] hfuel rfl
  rw [List.append_nil] at hmain
  show (match parseValue ((dumpVal 0 j).length + 1) (dumpVal 0 j) with
        | some (v, rest) => if skipWs rest = [] then some v else none
        | none => none) = some j
  rw [hmain]
  rfl

theorem json_strings_map (l : List String) : json_strings (l.map Json.str) = some l := by
  induction l with
  | nil => rfl
  | cons s rest ih => simp [json_strings, ih]

theorem json_to_note_roundtrip (n : Note) : json_to_note (note_to_json n) = some n := by
  show (json_strings (n.tags.map Json.str)).map
      (fun tags => { id := n.id, title := n.title, body := n.body, tags := tags,
                     created_at := n.created_at : Note }) = some n
  rw [json_strings_map]
  rfl

theorem json_notes_map (l : List Note) : json_notes (l.map note_to_json) = some l := by
  induction l with
  | nil => rfl
  | cons n rest ih =>
      show (match json_to_note (note_to_json n) with
            | some m => (json_notes (rest.map note_to_json)).map (m :: ·)
            | none => none) = some (n :: rest)
      rw [json_to_note_roundtrip, ih]
      rfl

/-- C6 counterexample: the compact text `{"next_id": 1, "notes": []}` is a
well-formed store file (it parses to a store-shaped document), yet
`save_store(load_store())` rewrites it into the indented canonical form,
which is not byte-identical to the original. -/
theorem store_save_load_not_identity :
    json_loads "\x7b\"next_id\": 1, \"notes\": []\x7d" =
      some (Json.obj [("next_id", Json.num 1), ("notes", Json.arr [])]) ∧
    is_store_json (Json.obj [("next_id", Json.num 1), ("notes", Json.arr [])]) = true ∧
    store_save_load "\x7b\"next_id\": 1, \"notes\": []\x7d" =
      some "\x7b\n  \"next_id\": 1,\n  \"notes\": []\n\x7d" ∧
    "\x7b\n  \"next_id\": 1,\n  \"notes\": []\n\x7d" ≠ "\x7b\"next_id\": 1, \"notes\": []\x7d" :=
  ⟨by rfl, by rfl, by rfl, by decide⟩

/-- C6 (amended): for a store file in the canonical serialized form that
`save_store` itself writes - the only form the tool ever produces -
`save_store(load_store())` is a no-op on the file's bytes. -/
theorem store_save_load_canonical (st : Store) :
    store_save_load (store_file_content st) = some (store_file_content st) := by
  unfold store_save_load store_file_content
  rw [dump_roundtrip (store_to_json st)]
  rfl

/-- C7: the json export writes exactly one document whose single key
`notes` holds the full ordered note records, and parsing that file back
yields a note sequence identical, in content and order, to `listNotes()`
at export time. -/
theorem export_json_correct (fs : FS) :
    export_notes_json fs =
      json_dumps (Json.obj [("notes", Json.arr ((list_notes fs).map note_to_json))]) ∧
    decode_export (export_notes_json fs) = some (list_notes fs) := by
  refine ⟨rfl, ?_⟩
  show (match json_loads (json_dumps
      (Json.obj [("notes", Json.arr ((list_notes fs).map note_to_json))])) with
    | some (.obj [("notes", .arr items)]) => json_notes items
    | _ => none) = some (list_notes fs)
  rw [dump_roundtrip]
  show json_notes ((list_notes fs).map note_to_json) = some (list_notes fs)
  exact json_notes_map (list_notes fs)
